import Mathlib

/-!
Verification development for the cherche neural-search pipeline library.

The repository ships the pipeline-composition engine (sequential `+`, union
`|`, intersection `&`, mapping stages, QA/summarization transform stages)
together with documentation notebooks whose output cells record the engine's
behaviour on concrete queries.  The composition engine itself is not among the
source files available here — only its documentation and example callers are —
so the engine is modelled below from the specification (spec.md §2–§7),
adjusted in exactly the places where the recorded notebook outputs under
docs/examples contradict the specification text:

* the union and intersection merges emit bare key records (the recorded
  outputs `[{'id': 20}, {'id': 24}, ...]` carry no similarity or other field;
  spec §9 itself flags the union field-provenance rule as an open question);
* a pipeline ending in a summarization stage returns a bare string
  (docs/examples/retriever_ranker_summary.ipynb records the output
  `'The "Pearl of Aquitaine" ...'`, not a record sequence).
-/

namespace Cherche

/-- A dynamically-typed field value of a document record: a string or a
number.  Scores are modelled as rationals. -/
inductive Value where
  | vStr (s : String)
  | vNum (q : ℚ)
deriving DecidableEq

/-- A document / result record: an associative list from field names to
values, first binding wins (spec §3, heterogeneous schema). -/
abbrev Doc := List (String × Value)

/-- Field lookup in a record; the first binding of the name wins. -/
def getField (f : String) : Doc → Option Value
  | [] => none
  | (g, v) :: rest => if g = f then some v else getField f rest

/-- The key values of a result sequence, in sequence order (records lacking
the key field contribute nothing). -/
def keysOf (key : String) (ds : List Doc) : List Value :=
  ds.filterMap (getField key)

/-- Modelled from the spec: the operational merge loop of Union (§4.3),
walking the concatenated branch key sequences and keeping each key's first
occurrence; `seen` is the accumulator of keys already emitted. -/
def unionLoop (seen : List Value) : List Value → List Value
  | [] => []
  | v :: rest =>
    if v ∈ seen then unionLoop seen rest else v :: unionLoop (v :: seen) rest

/-- Declarative first-occurrence de-duplication: keep each value's first
occurrence, in order. -/
def firstDedup : List Value → List Value
  | [] => []
  | v :: rest => v :: firstDedup (rest.filter (fun w => w ≠ v))
termination_by l => l.length
decreasing_by
  exact Nat.lt_succ_of_le (List.length_filter_le _ _)

theorem mem_unionLoop (l : List Value) :
    ∀ (seen : List Value) (x : Value),
      x ∈ unionLoop seen l ↔ x ∈ l ∧ x ∉ seen := by
  induction l with
  | nil => intro seen x; simp [unionLoop]
  | cons v rest ih =>
    intro seen x
    by_cases hv : v ∈ seen
    · simp only [unionLoop, if_pos hv, ih, List.mem_cons]
      constructor
      · rintro ⟨hx, hs⟩; exact ⟨Or.inr hx, hs⟩
      · rintro ⟨hx | hx, hs⟩
        · exact absurd (hx ▸ hv) hs
        · exact ⟨hx, hs⟩
    · simp only [unionLoop, if_neg hv, List.mem_cons, ih]
      constructor
      · rintro (rfl | ⟨hx, hs⟩)
        · exact ⟨Or.inl rfl, hv⟩
        · exact ⟨Or.inr hx, fun h => hs (Or.inr h)⟩
      · rintro ⟨rfl | hx, hs⟩
        · exact Or.inl rfl
        · by_cases hxv : x = v
          · exact Or.inl hxv
          · exact Or.inr ⟨hx, by simp [hxv, hs]⟩

theorem nodup_unionLoop (l : List Value) :
    ∀ seen : List Value, (unionLoop seen l).Nodup := by
  induction l with
  | nil => intro seen; simp [unionLoop]
  | cons v rest ih =>
    intro seen
    by_cases hv : v ∈ seen
    · simpa [unionLoop, if_pos hv] using ih seen
    · simp only [unionLoop, if_neg hv, List.nodup_cons]
      refine ⟨fun hmem => ?_, ih (v :: seen)⟩
      rcases (mem_unionLoop rest (v :: seen) v).1 hmem with ⟨-, hs⟩
      exact hs (List.mem_cons_self v seen)

theorem sublist_unionLoop (l : List Value) :
    ∀ seen : List Value, (unionLoop seen l).Sublist l := by
  induction l with
  | nil => intro seen; simp [unionLoop]
  | cons v rest ih =>
    intro seen
    by_cases hv : v ∈ seen
    · simpa [unionLoop, if_pos hv] using (ih seen).cons v
    · simpa [unionLoop, if_neg hv] using (ih (v :: seen)).cons₂ v

theorem unionLoop_eq_firstDedup (l : List Value) :
    ∀ seen : List Value,
      unionLoop seen l = firstDedup (l.filter (fun v => v ∉ seen)) := by
  induction l with
  | nil => intro seen; simp [unionLoop, firstDedup]
  | cons v rest ih =>
    intro seen
    by_cases hv : v ∈ seen
    · have hfilter : (v :: rest).filter (fun w => w ∉ seen) =
          rest.filter (fun w => w ∉ seen) := by
        simp [List.filter_cons, hv]
      simp only [unionLoop, if_pos hv, hfilter]
      exact ih seen
    · have hfilter : (v :: rest).filter (fun w => w ∉ seen) =
          v :: rest.filter (fun w => w ∉ seen) := by
        simp [List.filter_cons, hv]
      have hfd : firstDedup (v :: rest.filter (fun w => w ∉ seen)) =
          v :: firstDedup ((rest.filter (fun w => w ∉ seen)).filter
            (fun w => w ≠ v)) := by
        simp [firstDedup]
      have hff : (rest.filter (fun w => w ∉ seen)).filter (fun w => w ≠ v) =
          rest.filter (fun w => w ∉ v :: seen) := by
        rw [List.filter_filter]
        apply List.filter_congr
        intro w _
        by_cases hwv : w = v
        · simp [hwv]
        · by_cases hws : w ∈ seen <;> simp [hwv, hws]
      simp only [unionLoop, if_neg hv, hfilter, hfd, hff]
      exact congrArg (v :: ·) (ih (v :: seen))

theorem unionLoop_nil_eq_firstDedup (l : List Value) :
    unionLoop [] l = firstDedup l := by
  rw [unionLoop_eq_firstDedup l []]
  congr 1
  simp

theorem keysOf_append (key : String) (xs ys : List Doc) :
    keysOf key (xs ++ ys) = keysOf key xs ++ keysOf key ys := by
  simp [keysOf]

theorem keysOf_bare (key : String) (l : List Value) :
    keysOf key (l.map (fun v => [(key, v)])) = l := by
  induction l with
  | nil => simp [keysOf]
  | cons v rest ih =>
    simp only [keysOf, List.map_cons, List.filterMap_cons] at ih ⊢
    simp [getField, ih]

/-- Modelled from the spec: the key-to-document lookup of the mapping stage
(§4.5), built from the indexed collection; duplicate keys follow the
overwrite-on-duplicate policy, so the last matching document wins. -/
def lookupDoc (key : String) (v : Value) : List Doc → Option Doc
  | [] => none
  | d :: rest =>
    match lookupDoc key v rest with
    | some found => some found
    | none => if getField key d = some v then some d else none

/-- Merge rule of the mapping stage (§4.5): the stored document's fields
followed by the upstream record's fields whose names the document does not
already bind, so upstream fields such as similarity are kept. -/
def mergeDoc (d r : Doc) : Doc :=
  d ++ r.filter (fun p => (getField p.1 d).isNone)

/-- Modelled from the spec: the mapping stage call (§4.5): each upstream
record whose key resolves in the store is replaced by the looked-up
document's fields augmented with the record's remaining fields, in input
order; a record whose key has no match (or no key) is silently dropped. -/
def mapDocs (key : String) (store : List Doc) : List Doc → List Doc
  | [] => []
  | r :: rest =>
    match getField key r with
    | none => mapDocs key store rest
    | some v =>
      match lookupDoc key v store with
      | none => mapDocs key store rest
      | some d => mergeDoc d r :: mapDocs key store rest

/-- The current relevance score of a record under a given score field:
its numeric value, or zero when the field is absent or non-numeric. -/
def scoreOf (sf : String) (d : Doc) : ℚ :=
  match getField sf d with
  | some (Value.vNum x) => x
  | _ => 0

/-- Decreasing-score order used by a transform stage to re-sort its merged
records by its own confidence field (§4.2). -/
def scoreGe (sf : String) (a b : Doc) : Prop :=
  scoreOf sf b ≤ scoreOf sf a

instance (sf : String) : DecidableRel (scoreGe sf) := fun a b =>
  inferInstanceAs (Decidable (scoreOf sf b ≤ scoreOf sf a))

instance (sf : String) : IsTotal Doc (scoreGe sf) :=
  ⟨fun a b => le_total (scoreOf sf b) (scoreOf sf a)⟩

instance (sf : String) : IsTrans Doc (scoreGe sf) :=
  ⟨fun _ _ _ h1 h2 => le_trans h2 h1⟩

/-- Stable re-sorting of a transform stage's merged records, decreasing in
the transform's confidence score. -/
def sortByScoreDesc (sf : String) (ds : List Doc) : List Doc :=
  List.insertionSort (scoreGe sf) ds

/-- The value a pipeline call produces: a result-record sequence, or — for a
pipeline ending in a summarization transform — a bare string, as recorded in
docs/examples/retriever_ranker_summary.ipynb. -/
inductive Output where
  | docs (ds : List Doc)
  | text (s : String)
deriving DecidableEq

/-- The record sequence of an output (empty for a text output). -/
def Output.docsOf : Output → List Doc
  | Output.docs ds => ds
  | Output.text _ => []

/-- Whether an output is a record sequence. -/
def Output.isDocs : Output → Bool
  | Output.docs _ => true
  | Output.text _ => false

/-- Modelled from the spec: the pipeline composition tree of the compose
module, absent from the available sources (§2, §9): a closed variant over
leaf stages (retriever/ranker collaborators as external oracles, with their
declared key field and result-size limit k), mapping stages, QA-like
transform stages, summarization stages, and the three composition operators.
Atomic stages carry a numeric id so an instrumented call can record which
stages were invoked. -/
inductive Pipeline where
  | leaf (id : Nat) (key : String) (k : Nat)
      (oracle : String → Option (List Value) → List Doc)
  | mapping (id : Nat) (key : String) (store : List Doc)
  | transform (id : Nat) (scoreField : String)
      (derive : String → Doc → List (String × Value))
  | summary (id : Nat) (model : String → List Doc → String)
  | pseq (a b : Pipeline)
  | punion (key : String) (a b : Pipeline)
  | pinter (key : String) (a b : Pipeline)

/-- Modelled from the spec: the instrumented pipeline call (§4.2-§4.5).  It
returns the produced output together with the trace of invoked atomic-stage
ids, so the short-circuit policy of §4.2 is observable.  A leaf stage passes
the upstream keys as the collaborator's candidate restriction and truncates
to its k; a sequential composition threads the result sequence rightward and
short-circuits on empty; union and intersection run both branches on the
same query and candidates and merge by key.  The merges emit bare key
records, matching the recorded outputs in docs/examples (the spec's
first-branch field-provenance rule, flagged open in §9, contradicts those
recorded outputs). -/
def callTr : Pipeline → String → Option (List Doc) → Output × List Nat
  | Pipeline.leaf i key k oracle, q, up =>
    (Output.docs ((oracle q (up.map (keysOf key))).take k), [i])
  | Pipeline.mapping i key store, _, up =>
    (Output.docs (mapDocs key store (up.getD [])), [i])
  | Pipeline.transform i sf derive, q, up =>
    (Output.docs (sortByScoreDesc sf
      ((up.getD []).map (fun r => derive q r ++ r))), [i])
  | Pipeline.summary i model, q, up =>
    (Output.text (model q (up.getD [])), [i])
  | Pipeline.pseq a b, q, up =>
    match callTr a q up with
    | (Output.text s, ta) => (Output.text s, ta)
    | (Output.docs [], ta) => (Output.docs [], ta)
    | (Output.docs (d :: ds), ta) =>
      let rb := callTr b q (some (d :: ds))
      (rb.1, ta ++ rb.2)
  | Pipeline.punion key a b, q, up =>
    let ra := callTr a q up
    let rb := callTr b q up
    (Output.docs ((unionLoop [] (keysOf key (ra.1.docsOf ++ rb.1.docsOf))).map
      (fun v => [(key, v)])), ra.2 ++ rb.2)
  | Pipeline.pinter key a b, q, up =>
    let ra := callTr a q up
    let rb := callTr b q up
    (Output.docs (((unionLoop [] (keysOf key ra.1.docsOf)).filter
      (fun v => v ∈ keysOf key rb.1.docsOf)).map
      (fun v => [(key, v)])), ra.2 ++ rb.2)

/-- Calling a composed pipeline on a query: no upstream candidate
restriction, invocation trace discarded (§6). -/
def call (p : Pipeline) (q : String) : Output :=
  (callTr p q none).1

/-- Modelled from the spec: the += shorthand (§6), equivalent to composing
the pipeline with a mapping stage built from the right-hand document
collection. -/
def addDocuments (p : Pipeline) (i : Nat) (key : String)
    (store : List Doc) : Pipeline :=
  Pipeline.pseq p (Pipeline.mapping i key store)

/-- Whether a pipeline contains no summarization stage. -/
def summaryFree : Pipeline → Bool
  | Pipeline.leaf _ _ _ _ => true
  | Pipeline.mapping _ _ _ => true
  | Pipeline.transform _ _ _ => true
  | Pipeline.summary _ _ => false
  | Pipeline.pseq a b => summaryFree a && summaryFree b
  | Pipeline.punion _ a b => summaryFree a && summaryFree b
  | Pipeline.pinter _ a b => summaryFree a && summaryFree b

/-- The score value 0.9 appearing in the concrete scenario of spec §8. -/
def simNine : ℚ := ⟨9, 10, by decide, by decide⟩

/-- The score value 0.3 appearing in the concrete scenario of spec §8. -/
def simThree : ℚ := ⟨3, 10, by decide, by decide⟩

/-- The score value 0.5 appearing in the concrete scenario of spec §8. -/
def simFive : ℚ := ⟨1, 2, by decide, by decide⟩

theorem simNine_eq : simNine = 9 / 10 := by
  rw [simNine, Rat.mk'_eq_divInt, Rat.divInt_eq_div]; norm_num

theorem simThree_eq : simThree = 3 / 10 := by
  rw [simThree, Rat.mk'_eq_divInt, Rat.divInt_eq_div]; norm_num

theorem simFive_eq : simFive = 5 / 10 := by
  rw [simFive, Rat.mk'_eq_divInt, Rat.divInt_eq_div]; norm_num

theorem getField_append (f : String) (xs ys : Doc) :
    getField f (xs ++ ys) =
      match getField f xs with
      | some v => some v
      | none => getField f ys := by
  induction xs with
  | nil => simp [getField]
  | cons p rest ih =>
    rcases p with ⟨g, v⟩
    by_cases hg : g = f
    · simp [getField, hg]
    · simp [getField, hg, ih]

theorem getField_append_of_none (f : String) (xs ys : Doc)
    (h : getField f xs = none) :
    getField f (xs ++ ys) = getField f ys := by
  rw [getField_append, h]

theorem getField_append_of_some (f : String) (xs ys : Doc) (w : Value)
    (h : getField f xs = some w) :
    getField f (xs ++ ys) = some w := by
  rw [getField_append, h]

theorem getField_filter_isNone (f : String) (d : Doc) (r : Doc)
    (h : getField f d = none) :
    getField f (r.filter (fun p => (getField p.1 d).isNone)) =
      getField f r := by
  induction r with
  | nil => simp
  | cons p rest ih =>
    rcases p with ⟨g, v⟩
    by_cases hg : g = f
    · subst hg
      simp [List.filter_cons, h, getField, ih]
    · by_cases hkeep : (getField g d).isNone
      · simp [List.filter_cons, hkeep, getField, hg, ih]
      · simp [List.filter_cons, hkeep, getField, hg, ih]

theorem getField_mergeDoc_of_doc_none (d r : Doc) (f : String)
    (h : getField f d = none) :
    getField f (mergeDoc d r) = getField f r := by
  rw [mergeDoc, getField_append_of_none _ _ _ h, getField_filter_isNone _ _ _ h]

theorem getField_mergeDoc_of_doc_some (d r : Doc) (f : String) (w : Value)
    (h : getField f d = some w) :
    getField f (mergeDoc d r) = some w := by
  rw [mergeDoc, getField_append_of_some _ _ _ _ h]

theorem getField_eq_none_of_not_mem_names (xs : List (String × Value))
    (f : String) (h : f ∉ xs.map Prod.fst) :
    getField f xs = none := by
  induction xs with
  | nil => simp [getField]
  | cons p rest ih =>
    rcases p with ⟨g, v⟩
    simp only [List.map_cons, List.mem_cons] at h
    push_neg at h
    have hgf : ¬ g = f := fun hgf => h.1 hgf.symm
    simp [getField, hgf, ih h.2]

theorem lookupDoc_key (key : String) (v : Value) (store : List Doc)
    (d : Doc) (h : lookupDoc key v store = some d) :
    getField key d = some v := by
  induction store with
  | nil => simp [lookupDoc] at h
  | cons e rest ih =>
    rw [lookupDoc] at h
    rcases hrest : lookupDoc key v rest with - | found
    · rw [hrest] at h
      simp only at h
      by_cases he : getField key e = some v
      · rw [if_pos he] at h
        cases h
        exact he
      · rw [if_neg he] at h
        cases h
    · rw [hrest] at h
      simp only at h
      cases h
      exact ih hrest

theorem keysOf_mapDocs (key : String) (store : List Doc) (rs : List Doc) :
    keysOf key (mapDocs key store rs) =
      (keysOf key rs).filter (fun v => (lookupDoc key v store).isSome) := by
  induction rs with
  | nil => simp [mapDocs, keysOf]
  | cons r rest ih =>
    rcases hr : getField key r with - | v
    · simp only [mapDocs, hr, keysOf, List.filterMap_cons] at ih ⊢
      exact ih
    · rcases hd : lookupDoc key v store with - | d
      · simp only [mapDocs, hr, hd, keysOf, List.filterMap_cons] at ih ⊢
        rw [List.filter_cons]
        simp only [hd, Option.isSome_none, Bool.false_eq_true, if_false]
        exact ih
      · simp only [mapDocs, hr, hd, keysOf, List.filterMap_cons] at ih ⊢
        rw [getField_mergeDoc_of_doc_some _ _ _ _ (lookupDoc_key _ _ _ _ hd),
          List.filter_cons]
        simp only [hd, Option.isSome_some, if_true]
        exact congrArg (v :: ·) ih

theorem mapDocs_forall₂ (key : String) (store : List Doc) (rs : List Doc)
    (h : ∀ r ∈ rs, ∃ v d, getField key r = some v ∧
      lookupDoc key v store = some d) :
    List.Forall₂ (fun r m => ∃ v d, getField key r = some v ∧
      lookupDoc key v store = some d ∧ m = mergeDoc d r)
      rs (mapDocs key store rs) := by
  induction rs with
  | nil => simp [mapDocs]
  | cons r rest ih =>
    rcases h r (List.mem_cons_self r rest) with ⟨v, d, hv, hd⟩
    simp only [mapDocs, hv, hd]
    exact List.Forall₂.cons ⟨v, d, hv, hd, rfl⟩
      (ih fun x hx => h x (List.mem_cons_of_mem r hx))

theorem keysOf_mapDocs_of_found (key : String) (store : List Doc)
    (rs : List Doc)
    (h : ∀ r ∈ rs, ∃ v d, getField key r = some v ∧
      lookupDoc key v store = some d) :
    keysOf key (mapDocs key store rs) = keysOf key rs := by
  induction rs with
  | nil => simp [mapDocs]
  | cons r rest ih =>
    rcases h r (List.mem_cons_self r rest) with ⟨v, d, hv, hd⟩
    simp only [mapDocs, hv, hd]
    have ih2 := ih fun x hx => h x (List.mem_cons_of_mem r hx)
    simp only [keysOf, List.filterMap_cons] at ih2 ⊢
    rw [getField_mergeDoc_of_doc_some _ _ _ _ (lookupDoc_key _ _ _ _ hd), hv]
    exact congrArg (v :: ·) ih2

theorem callTr_pseq (a b : Pipeline) (q : String) (up : Option (List Doc)) :
    callTr (Pipeline.pseq a b) q up =
      match callTr a q up with
      | (Output.text s, ta) => (Output.text s, ta)
      | (Output.docs [], ta) => (Output.docs [], ta)
      | (Output.docs (d :: ds), ta) =>
        ((callTr b q (some (d :: ds))).1,
          ta ++ (callTr b q (some (d :: ds))).2) := rfl

theorem callTr_punion (key : String) (a b : Pipeline) (q : String)
    (up : Option (List Doc)) :
    callTr (Pipeline.punion key a b) q up =
      (Output.docs ((unionLoop [] (keysOf key
        (((callTr a q up).1).docsOf ++ ((callTr b q up).1).docsOf))).map
        (fun v => [(key, v)])),
       (callTr a q up).2 ++ (callTr b q up).2) := rfl

theorem callTr_pinter (key : String) (a b : Pipeline) (q : String)
    (up : Option (List Doc)) :
    callTr (Pipeline.pinter key a b) q up =
      (Output.docs (((unionLoop [] (keysOf key
        (((callTr a q up).1).docsOf))).filter
        (fun v => v ∈ keysOf key (((callTr b q up).1).docsOf))).map
        (fun v => [(key, v)])),
       (callTr a q up).2 ++ (callTr b q up).2) := rfl

theorem length_unionLoop_nil (l : List Value) :
    (unionLoop [] l).length = l.toFinset.card := by
  have h1 : (unionLoop [] l).toFinset = l.toFinset := by
    ext x
    simp [List.mem_toFinset, mem_unionLoop]
  rw [← h1, List.toFinset_card_of_nodup (nodup_unionLoop l [])]

/-- The record with id 0 and sim 0.9 of the concrete scenario in spec §8. -/
def dId0Sim9 : Doc := [("id", Value.vNum 0), ("sim", Value.vNum simNine)]

/-- The record with id 1 and sim 0.3 of the concrete scenario in spec §8. -/
def dId1Sim3 : Doc := [("id", Value.vNum 1), ("sim", Value.vNum simThree)]

/-- The record with id 1 and sim 0.5 of the concrete scenario in spec §8. -/
def dId1Sim5 : Doc := [("id", Value.vNum 1), ("sim", Value.vNum simFive)]

/-- The retriever R of the concrete scenario in spec §8: k = 10, returns
records with ids 0 and 1 scored 0.9 and 0.3. -/
def retrieverR : Pipeline :=
  Pipeline.leaf 0 "id" 10 (fun _ _ => [dId0Sim9, dId1Sim3])

/-- The retriever S of the concrete scenario in spec §8: returns the record
with id 1 scored 0.5. -/
def retrieverS : Pipeline :=
  Pipeline.leaf 1 "id" 10 (fun _ _ => [dId1Sim5])

/-- C1, counterexample: taking branch A returning the single record
with id 0 and sim 0.9 and branch B returning nothing, the union result is
not the concatenation of the branch results de-duplicated by key (that would
be the record with its sim field), because the merge emits bare key
records. -/
theorem c1_union_merge_cex :
    call (Pipeline.punion "id"
      (Pipeline.leaf 0 "id" 10 (fun _ _ => [dId0Sim9]))
      (Pipeline.leaf 1 "id" 10 (fun _ _ => []))) "q" ≠
        Output.docs [dId0Sim9] ∧
    call (Pipeline.punion "id"
      (Pipeline.leaf 0 "id" 10 (fun _ _ => [dId0Sim9]))
      (Pipeline.leaf 1 "id" 10 (fun _ _ => []))) "q" =
        Output.docs [[("id", Value.vNum 0)]] :=
  ⟨by decide, by decide⟩

/-- C1 (amended): for every union pipeline A | B and every query q, the key
sequence of (A | B)(q) is the concatenation of A(q)'s and B(q)'s key
sequences de-duplicated keeping only the first occurrence of each key — so
the final order is the declared branch order (left branch first) with each
branch's original internal order preserved (a sublist of the concatenation,
no re-sorting) and without duplicate keys — but each merged record carries
only the key field, not the originating branch's other fields or score. -/
theorem c1_union_merge (key : String) (a b : Pipeline) (q : String)
    (up : Option (List Doc)) :
    keysOf key (((callTr (Pipeline.punion key a b) q up).1).docsOf) =
      firstDedup (keysOf key (((callTr a q up).1).docsOf) ++
        keysOf key (((callTr b q up).1).docsOf)) ∧
    (keysOf key (((callTr (Pipeline.punion key a b) q up).1).docsOf)).Sublist
      (keysOf key (((callTr a q up).1).docsOf) ++
        keysOf key (((callTr b q up).1).docsOf)) ∧
    (keysOf key (((callTr (Pipeline.punion key a b) q up).1).docsOf)).Nodup ∧
    (∀ r ∈ ((callTr (Pipeline.punion key a b) q up).1).docsOf,
      ∃ v, r = [(key, v)]) := by
  rw [callTr_punion]
  simp only [Output.docsOf, keysOf_bare, keysOf_append]
  refine ⟨unionLoop_nil_eq_firstDedup _, sublist_unionLoop _ [],
    nodup_unionLoop _ [], ?_⟩
  intro r hr
  rcases List.mem_map.1 hr with ⟨v, -, rfl⟩
  exact ⟨v, rfl⟩

/-- C1, witness: the amended union-merge theorem evaluated on a union of two
concrete leaf branches sharing the key 2. -/
theorem c1_union_merge_witness :
    keysOf "id" (((callTr (Pipeline.punion "id"
        (Pipeline.leaf 0 "id" 10 (fun _ _ =>
          [[("id", Value.vNum 1)], [("id", Value.vNum 2)]]))
        (Pipeline.leaf 1 "id" 10 (fun _ _ =>
          [[("id", Value.vNum 2)], [("id", Value.vNum 3)]]))) "q" none).1).docsOf) =
      firstDedup [Value.vNum 1, Value.vNum 2, Value.vNum 2, Value.vNum 3] ∧
    (∃ v, [("id", Value.vNum 2)] = [("id", v)]) := by
  refine ⟨?_, ?_⟩
  · have h := (c1_union_merge "id"
      (Pipeline.leaf 0 "id" 10 (fun _ _ =>
        [[("id", Value.vNum 1)], [("id", Value.vNum 2)]]))
      (Pipeline.leaf 1 "id" 10 (fun _ _ =>
        [[("id", Value.vNum 2)], [("id", Value.vNum 3)]])) "q" none).1
    simpa using h
  · exact (c1_union_merge "id"
      (Pipeline.leaf 0 "id" 10 (fun _ _ =>
        [[("id", Value.vNum 1)], [("id", Value.vNum 2)]]))
      (Pipeline.leaf 1 "id" 10 (fun _ _ =>
        [[("id", Value.vNum 2)], [("id", Value.vNum 3)]])) "q" none).2.2.2
      [("id", Value.vNum 2)] (by decide)

/-- C2, counterexample: with branch A returning the single record with id 1
and sim 0.3 and branch B returning the record with id 1 and sim 0.5, the
intersection keeps the common key 1 but its record is the bare key record,
not A's record with its fields and score. -/
theorem c2_inter_merge_cex :
    call (Pipeline.pinter "id"
      (Pipeline.leaf 0 "id" 10 (fun _ _ => [dId1Sim3]))
      (Pipeline.leaf 1 "id" 10 (fun _ _ => [dId1Sim5]))) "q" ≠
        Output.docs [dId1Sim3] ∧
    call (Pipeline.pinter "id"
      (Pipeline.leaf 0 "id" 10 (fun _ _ => [dId1Sim3]))
      (Pipeline.leaf 1 "id" 10 (fun _ _ => [dId1Sim5]))) "q" =
        Output.docs [[("id", Value.vNum 1)]] :=
  ⟨by decide, by decide⟩

/-- C2 (amended): for every intersection pipeline A & B and every query q,
the key set of (A & B)(q) is exactly the set of keys present in both
branches' result sequences (hence empty whenever either branch is empty),
and the order equals the leftmost branch A's original ranking restricted to
that key set (a sublist of A's key sequence); but each surviving record is
the bare key record, not A's record with its fields and score. -/
theorem c2_inter_merge (key : String) (a b : Pipeline) (q : String)
    (up : Option (List Doc)) :
    keysOf key (((callTr (Pipeline.pinter key a b) q up).1).docsOf) =
      (firstDedup (keysOf key (((callTr a q up).1).docsOf))).filter
        (fun v => v ∈ keysOf key (((callTr b q up).1).docsOf)) ∧
    (∀ v : Value,
      v ∈ keysOf key (((callTr (Pipeline.pinter key a b) q up).1).docsOf) ↔
        v ∈ keysOf key (((callTr a q up).1).docsOf) ∧
        v ∈ keysOf key (((callTr b q up).1).docsOf)) ∧
    (keysOf key (((callTr (Pipeline.pinter key a b) q up).1).docsOf)).Sublist
      (keysOf key (((callTr a q up).1).docsOf)) ∧
    (((callTr a q up).1).docsOf = [] ∨ ((callTr b q up).1).docsOf = [] →
      ((callTr (Pipeline.pinter key a b) q up).1).docsOf = []) ∧
    (∀ r ∈ ((callTr (Pipeline.pinter key a b) q up).1).docsOf,
      ∃ v, r = [(key, v)]) := by
  rw [callTr_pinter]
  simp only [Output.docsOf, keysOf_bare]
  refine ⟨?_, ?_, ?_, ?_, ?_⟩
  · rw [unionLoop_nil_eq_firstDedup]
  · intro v
    simp [List.mem_filter, mem_unionLoop]
  · exact (List.filter_sublist _).trans (sublist_unionLoop _ [])
  · rintro (h | h)
    · simp [h, keysOf, unionLoop]
    · simp [h, keysOf, List.filter_eq_nil_iff]
  · intro r hr
    rcases List.mem_map.1 hr with ⟨v, -, rfl⟩
    exact ⟨v, rfl⟩

/-- C2, witness: the amended intersection-merge theorem evaluated on two
concrete leaf branches whose common key is 2, the left branch ranking keys
as 1, 2. -/
theorem c2_inter_merge_witness :
    keysOf "id" (((callTr (Pipeline.pinter "id"
        (Pipeline.leaf 0 "id" 10 (fun _ _ =>
          [[("id", Value.vNum 1)], [("id", Value.vNum 2)]]))
        (Pipeline.leaf 1 "id" 10 (fun _ _ =>
          [[("id", Value.vNum 2)], [("id", Value.vNum 3)]]))) "q" none).1).docsOf) =
      (firstDedup [Value.vNum 1, Value.vNum 2]).filter
        (fun v => v ∈ [Value.vNum 2, Value.vNum 3]) ∧
    ((Value.vNum 2) ∈ keysOf "id" (((callTr (Pipeline.pinter "id"
        (Pipeline.leaf 0 "id" 10 (fun _ _ =>
          [[("id", Value.vNum 1)], [("id", Value.vNum 2)]]))
        (Pipeline.leaf 1 "id" 10 (fun _ _ =>
          [[("id", Value.vNum 2)], [("id", Value.vNum 3)]]))) "q" none).1).docsOf) ↔
      (Value.vNum 2) ∈ [Value.vNum 1, Value.vNum 2] ∧
      (Value.vNum 2) ∈ [Value.vNum 2, Value.vNum 3]) ∧
    (∃ v, [("id", Value.vNum 2)] = [("id", v)]) := by
  refine ⟨?_, ?_, ?_⟩
  · exact (c2_inter_merge "id"
      (Pipeline.leaf 0 "id" 10 (fun _ _ =>
        [[("id", Value.vNum 1)], [("id", Value.vNum 2)]]))
      (Pipeline.leaf 1 "id" 10 (fun _ _ =>
        [[("id", Value.vNum 2)], [("id", Value.vNum 3)]])) "q" none).1
  · exact (c2_inter_merge "id"
      (Pipeline.leaf 0 "id" 10 (fun _ _ =>
        [[("id", Value.vNum 1)], [("id", Value.vNum 2)]]))
      (Pipeline.leaf 1 "id" 10 (fun _ _ =>
        [[("id", Value.vNum 2)], [("id", Value.vNum 3)]])) "q" none).2.1
      (Value.vNum 2)
  · exact (c2_inter_merge "id"
      (Pipeline.leaf 0 "id" 10 (fun _ _ =>
        [[("id", Value.vNum 1)], [("id", Value.vNum 2)]]))
      (Pipeline.leaf 1 "id" 10 (fun _ _ =>
        [[("id", Value.vNum 2)], [("id", Value.vNum 3)]])) "q" none).2.2.2.2
      [("id", Value.vNum 2)] (by decide)

/-- C3, counterexample: in the spec's scenario — retriever R returning the
records (id 0, sim 0.9), (id 1, sim 0.3) and retriever S returning
(id 1, sim 0.5) — the union (R | S)("Paris") does not return R's records
with their sim values; it returns the bare key records for ids 0 and 1. -/
theorem c3_union_provenance_cex :
    call (Pipeline.punion "id" retrieverR retrieverS) "Paris" ≠
      Output.docs [dId0Sim9, dId1Sim3] ∧
    call (Pipeline.punion "id" retrieverR retrieverS) "Paris" =
      Output.docs [[("id", Value.vNum 0)], [("id", Value.vNum 1)]] :=
  ⟨by decide, by decide⟩

/-- C3 (amended): every result record of a union pipeline (A | B)(q) holds
exactly one field, the key, whose value is a key produced by one of the
branches; the fields and the similarity score of the originating branch are
not present.  In the spec's scenario, (R | S)("Paris") returns the bare key
records for ids 0 and 1 in that order (S's id 1 suppressed as a duplicate),
without R's sim values. -/
theorem c3_union_provenance :
    (∀ (key : String) (a b : Pipeline) (q : String) (up : Option (List Doc)),
      ∀ r ∈ ((callTr (Pipeline.punion key a b) q up).1).docsOf,
        ∃ v, r = [(key, v)] ∧
          v ∈ keysOf key (((callTr a q up).1).docsOf) ++
            keysOf key (((callTr b q up).1).docsOf)) ∧
    call (Pipeline.punion "id" retrieverR retrieverS) "Paris" =
      Output.docs [[("id", Value.vNum 0)], [("id", Value.vNum 1)]] := by
  refine ⟨?_, by decide⟩
  intro key a b q up r hr
  rw [callTr_punion] at hr
  simp only [Output.docsOf] at hr
  rcases List.mem_map.1 hr with ⟨v, hv, rfl⟩
  refine ⟨v, rfl, ?_⟩
  have := (mem_unionLoop _ [] v).1 hv
  rw [keysOf_append] at this
  exact this.1

/-- C3, witness: the amended provenance theorem applied to the record for
id 0 of the concrete scenario's union output. -/
theorem c3_union_provenance_witness :
    ∃ v, [("id", Value.vNum 0)] = [("id", v)] ∧
      v ∈ keysOf "id" (((callTr retrieverR "Paris" none).1).docsOf) ++
        keysOf "id" (((callTr retrieverS "Paris" none).1).docsOf) :=
  c3_union_provenance.1 "id" retrieverR retrieverS "Paris" none
    [("id", Value.vNum 0)] (by decide)

/-- C10: the union operator applies no truncation of its own: the length of
(A | B)(q) equals the number of distinct keys occurring across the branch
results, every such key occurs in the output, and concretely the union of
two k = 5 branches returning five records each can return six results. -/
theorem c10_union_no_truncation :
    (∀ (key : String) (a b : Pipeline) (q : String) (up : Option (List Doc)),
      (((callTr (Pipeline.punion key a b) q up).1).docsOf).length =
        (keysOf key (((callTr a q up).1).docsOf) ++
          keysOf key (((callTr b q up).1).docsOf)).toFinset.card) ∧
    (∀ (key : String) (a b : Pipeline) (q : String) (up : Option (List Doc))
      (v : Value),
      v ∈ keysOf key (((callTr (Pipeline.punion key a b) q up).1).docsOf) ↔
        v ∈ keysOf key (((callTr a q up).1).docsOf) ++
          keysOf key (((callTr b q up).1).docsOf)) ∧
    ((call (Pipeline.punion "id"
      (Pipeline.leaf 0 "id" 5 (fun _ _ =>
        [[("id", Value.vNum 1)], [("id", Value.vNum 2)], [("id", Value.vNum 3)],
         [("id", Value.vNum 4)], [("id", Value.vNum 5)]]))
      (Pipeline.leaf 1 "id" 5 (fun _ _ =>
        [[("id", Value.vNum 2)], [("id", Value.vNum 3)], [("id", Value.vNum 4)],
         [("id", Value.vNum 5)], [("id", Value.vNum 6)]]))) "q").docsOf).length
      = 6 := by
  refine ⟨?_, ?_, by decide⟩
  · intro key a b q up
    rw [callTr_punion]
    simp only [Output.docsOf, List.length_map, ← keysOf_append]
    exact length_unionLoop_nil _
  · intro key a b q up v
    rw [callTr_punion]
    simp only [Output.docsOf, keysOf_bare, ← keysOf_append]
    rw [mem_unionLoop]
    simp

/-- C4, counterexample: a pipeline ending in a summarization transform stage
does not return a sequence of records — it returns a bare string, as
recorded in docs/examples/retriever_ranker_summary.ipynb. -/
theorem c4_output_shape_cex :
    call (Pipeline.pseq
      (Pipeline.leaf 0 "id" 10 (fun _ _ => [[("id", Value.vNum 1)]]))
      (Pipeline.summary 1 (fun _ _ => "Bordeaux is a French city")))
      "Bordeaux" = Output.text "Bordeaux is a French city" ∧
    (call (Pipeline.pseq
      (Pipeline.leaf 0 "id" 10 (fun _ _ => [[("id", Value.vNum 1)]]))
      (Pipeline.summary 1 (fun _ _ => "Bordeaux is a French city")))
      "Bordeaux").isDocs = false :=
  ⟨by decide, by decide⟩

/-- C4 (amended): for every composed pipeline containing no summarization
stage and every query, calling the pipeline returns a sequence of records;
a pipeline ending in a summarization transform instead returns a bare
string whenever the preceding stages produce a nonempty result sequence. -/
theorem c4_output_shape :
    (∀ (p : Pipeline) (q : String) (up : Option (List Doc)),
      summaryFree p = true → ((callTr p q up).1).isDocs = true) ∧
    (∀ (a : Pipeline) (i : Nat) (f : String → List Doc → String) (q : String)
      (up : Option (List Doc)) (d : Doc) (ds : List Doc),
      (callTr a q up).1 = Output.docs (d :: ds) →
      (callTr (Pipeline.pseq a (Pipeline.summary i f)) q up).1 =
        Output.text (f q (d :: ds))) := by
  constructor
  · intro p
    induction p with
    | leaf i key k oracle => intro q up h; simp [callTr, Output.isDocs]
    | mapping i key store => intro q up h; simp [callTr, Output.isDocs]
    | transform i sf derive => intro q up h; simp [callTr, Output.isDocs]
    | summary i f => intro q up h; simp [summaryFree] at h
    | pseq a b iha ihb =>
      intro q up h
      rw [summaryFree, Bool.and_eq_true] at h
      rw [callTr_pseq]
      rcases hres : callTr a q up with ⟨o, ta⟩
      rcases o with ds | s
      · rcases ds with - | ⟨d, ds⟩
        · simp [Output.isDocs]
        · exact ihb q (some (d :: ds)) h.2
      · have := iha q up h.1
        rw [hres] at this
        simp [Output.isDocs] at this
    | punion key a b iha ihb =>
      intro q up h
      rw [callTr_punion]
      simp [Output.isDocs]
    | pinter key a b iha ihb =>
      intro q up h
      rw [callTr_pinter]
      simp [Output.isDocs]
  · intro a i f q up d ds h
    rcases hres : callTr a q up with ⟨o, ta⟩
    rw [hres] at h
    simp only at h
    subst h
    rw [callTr_pseq, hres]
    simp [callTr]

/-- C4, witness: the amended output-shape theorem evaluated on a
summary-free leaf pipeline and on a concrete summarization-ending
pipeline. -/
theorem c4_output_shape_witness :
    ((callTr (Pipeline.leaf 0 "id" 10 (fun _ _ => [[("id", Value.vNum 1)]]))
      "q" none).1).isDocs = true ∧
    (callTr (Pipeline.pseq
      (Pipeline.leaf 0 "id" 10 (fun _ _ => [[("id", Value.vNum 1)]]))
      (Pipeline.summary 1 (fun _ _ => "a summary"))) "q" none).1 =
      Output.text "a summary" :=
  ⟨c4_output_shape.1 _ "q" none rfl,
   c4_output_shape.2 _ 1 _ "q" none [("id", Value.vNum 1)] [] (by decide)⟩

/-- C5: for every sequential pipeline and every query, if the first part
produces an empty candidate set the remaining stage is not invoked (the
invocation trace of the composition equals the first part's trace) and the
final result is the empty sequence; emptiness propagates as an empty
sequence, never an error, through union and intersection as well. -/
theorem c5_short_circuit (a b : Pipeline) (q : String)
    (up : Option (List Doc)) :
    ((callTr a q up).1 = Output.docs [] →
      callTr (Pipeline.pseq a b) q up =
        (Output.docs [], (callTr a q up).2)) ∧
    (∀ key : String, ((callTr a q up).1).docsOf = [] →
      ((callTr b q up).1).docsOf = [] →
      (callTr (Pipeline.punion key a b) q up).1 = Output.docs []) ∧
    (∀ key : String, ((callTr a q up).1).docsOf = [] →
      (callTr (Pipeline.pinter key a b) q up).1 = Output.docs []) := by
  refine ⟨?_, ?_, ?_⟩
  · intro h
    rcases hres : callTr a q up with ⟨o, ta⟩
    rw [hres] at h
    simp only at h
    subst h
    rw [callTr_pseq, hres]
  · intro key h1 h2
    rw [callTr_punion]
    simp [h1, h2, keysOf, unionLoop]
  · intro key h1
    rw [callTr_pinter]
    simp [h1, keysOf, unionLoop]

/-- C5, witness: the short-circuit theorem evaluated on a concrete empty
leaf followed by a nonempty leaf: the composition result is empty with the
first stage's trace only, and the union and intersection of the two are
empty and bare respectively. -/
theorem c5_short_circuit_witness :
    callTr (Pipeline.pseq
      (Pipeline.leaf 0 "id" 10 (fun _ _ => []))
      (Pipeline.leaf 1 "id" 10 (fun _ _ => [[("id", Value.vNum 1)]])))
      "q" none = (Output.docs [], [0]) ∧
    (callTr (Pipeline.pinter "id"
      (Pipeline.leaf 0 "id" 10 (fun _ _ => []))
      (Pipeline.leaf 1 "id" 10 (fun _ _ => [[("id", Value.vNum 1)]])))
      "q" none).1 = Output.docs [] :=
  ⟨(c5_short_circuit (Pipeline.leaf 0 "id" 10 (fun _ _ => []))
      (Pipeline.leaf 1 "id" 10 (fun _ _ => [[("id", Value.vNum 1)]]))
      "q" none).1 (by decide),
   (c5_short_circuit (Pipeline.leaf 0 "id" 10 (fun _ _ => []))
      (Pipeline.leaf 1 "id" 10 (fun _ _ => [[("id", Value.vNum 1)]]))
      "q" none).2.2 "id" (by decide)⟩

/-- C6: for every sequential composition whose last stage is a leaf stage
with result-size limit k, the composed result has length at most k for
every query; a leaf stage truncates its collaborator's output to k and
never pads it (its length is also bounded by the collaborator's output
length). -/
theorem c6_truncation (p0 : Pipeline) (i : Nat) (key : String) (k : Nat)
    (oracle : String → Option (List Value) → List Doc) (q : String)
    (up : Option (List Doc)) :
    (((callTr (Pipeline.pseq p0 (Pipeline.leaf i key k oracle))
        q up).1).docsOf).length ≤ k ∧
    (((callTr (Pipeline.leaf i key k oracle) q up).1).docsOf).length ≤ k ∧
    (((callTr (Pipeline.leaf i key k oracle) q up).1).docsOf).length ≤
      (oracle q (up.map (keysOf key))).length := by
  refine ⟨?_, ?_, ?_⟩
  · rw [callTr_pseq]
    rcases hres : callTr p0 q up with ⟨o, ta⟩
    rcases o with ds | s
    · rcases ds with - | ⟨d, ds⟩
      · simp [Output.docsOf]
      · simp only [callTr, Output.docsOf, List.length_take]
        exact Nat.min_le_left _ _
    · simp [Output.docsOf]
  · simp only [callTr, Output.docsOf, List.length_take]
    exact Nat.min_le_left _ _
  · simp only [callTr, Output.docsOf, List.length_take]
    exact Nat.min_le_right _ _

/-- C7: mapping fidelity: indexing the document (id 1, title Paris) into a
mapping stage and feeding it the upstream result (id 1, similarity 0.9)
yields the merged record (id 1, title Paris, similarity 0.9); in general a
mapping stage preserves the input order of the surviving keys and silently
drops exactly the records whose key does not resolve in the store, keeps
every upstream field the looked-up document does not bind, and takes the
document's value for the fields it does bind. -/
theorem c7_mapping_fidelity :
    (mapDocs "id" [[("id", Value.vNum 1), ("title", Value.vStr "Paris")]]
      [[("id", Value.vNum 1), ("similarity", Value.vNum simNine)]] =
      [[("id", Value.vNum 1), ("title", Value.vStr "Paris"),
        ("similarity", Value.vNum simNine)]]) ∧
    (∀ (i : Nat) (key : String) (store rs : List Doc) (q : String),
      (callTr (Pipeline.mapping i key store) q (some rs)).1 =
        Output.docs (mapDocs key store rs)) ∧
    (∀ (key : String) (store rs : List Doc),
      keysOf key (mapDocs key store rs) =
        (keysOf key rs).filter (fun v => (lookupDoc key v store).isSome)) ∧
    (∀ (d r : Doc) (f : String), getField f d = none →
      getField f (mergeDoc d r) = getField f r) ∧
    (∀ (d r : Doc) (f : String) (w : Value), getField f d = some w →
      getField f (mergeDoc d r) = some w) :=
  ⟨by decide, fun _ _ _ _ _ => rfl, keysOf_mapDocs,
    getField_mergeDoc_of_doc_none, getField_mergeDoc_of_doc_some⟩

/-- C7, witness: the mapping-fidelity theorem evaluated on the spec's
concrete store and upstream record: the upstream similarity field survives
the merge and the stored title field wins. -/
theorem c7_mapping_fidelity_witness :
    getField "similarity"
      (mergeDoc [("id", Value.vNum 1), ("title", Value.vStr "Paris")]
        [("id", Value.vNum 1), ("similarity", Value.vNum simNine)]) =
      getField "similarity"
        [("id", Value.vNum 1), ("similarity", Value.vNum simNine)] ∧
    getField "title"
      (mergeDoc [("id", Value.vNum 1), ("title", Value.vStr "Paris")]
        [("id", Value.vNum 1), ("similarity", Value.vNum simNine)]) =
      some (Value.vStr "Paris") :=
  ⟨c7_mapping_fidelity.2.2.2.1 _ _ "similarity" (by decide),
   c7_mapping_fidelity.2.2.2.2 _ _ "title" (Value.vStr "Paris") (by decide)⟩

/-- C8: in a sequential pipeline ending in a QA-like transform stage, the
transform receives the mapped documents of the preceding stages, merges its
derived fields (answer span, answer text, qa_score confidence) in front of
each of the same records — so the key field and the earlier similarity
field are preserved whenever the transform does not itself derive a field
of that name — and the final result sequence is a permutation of the merged
records sorted in decreasing order of the transform's confidence score. -/
theorem c8_transform_merge (p : Pipeline) (i : Nat) (sf : String)
    (derive : String → Doc → List (String × Value)) (q : String)
    (up : Option (List Doc)) (d : Doc) (ds : List Doc)
    (h : (callTr p q up).1 = Output.docs (d :: ds)) :
    (((callTr (Pipeline.pseq p (Pipeline.transform i sf derive))
        q up).1).docsOf).Perm
      ((d :: ds).map (fun r => derive q r ++ r)) ∧
    List.Sorted (scoreGe sf)
      (((callTr (Pipeline.pseq p (Pipeline.transform i sf derive))
        q up).1).docsOf) ∧
    (∀ (r : Doc) (f : String), f ∉ (derive q r).map Prod.fst →
      getField f (derive q r ++ r) = getField f r) := by
  rcases hres : callTr p q up with ⟨o, ta⟩
  rw [hres] at h
  simp only at h
  subst h
  rw [callTr_pseq, hres]
  simp only [callTr, Output.docsOf, sortByScoreDesc]
  refine ⟨List.perm_insertionSort _ _, List.sorted_insertionSort _ _, ?_⟩
  intro r f hf
  exact getField_append_of_none _ _ _
    (getField_eq_none_of_not_mem_names _ _ hf)

/-- C8, witness: the transform-merge theorem evaluated on a concrete
two-record pipeline whose derived qa_score values reverse the input
order. -/
theorem c8_transform_merge_witness :
    (((callTr (Pipeline.pseq
        (Pipeline.leaf 0 "id" 10 (fun _ _ =>
          [[("id", Value.vNum 1), ("sim", Value.vNum simThree)],
           [("id", Value.vNum 2), ("sim", Value.vNum simNine)]]))
        (Pipeline.transform 1 "qa_score" (fun _ r =>
          [("qa_score", (getField "sim" r).getD (Value.vNum 0))])))
        "q" none).1).docsOf).Perm
      (([[("id", Value.vNum 1), ("sim", Value.vNum simThree)],
         [("id", Value.vNum 2), ("sim", Value.vNum simNine)]] : List Doc).map
        (fun r => [("qa_score", (getField "sim" r).getD (Value.vNum 0))] ++ r)) ∧
    List.Sorted (scoreGe "qa_score")
      (((callTr (Pipeline.pseq
        (Pipeline.leaf 0 "id" 10 (fun _ _ =>
          [[("id", Value.vNum 1), ("sim", Value.vNum simThree)],
           [("id", Value.vNum 2), ("sim", Value.vNum simNine)]]))
        (Pipeline.transform 1 "qa_score" (fun _ r =>
          [("qa_score", (getField "sim" r).getD (Value.vNum 0))])))
        "q" none).1).docsOf) ∧
    getField "sim"
      ([("qa_score", (getField "sim"
        ([("id", Value.vNum 1), ("sim", Value.vNum simThree)] : Doc)).getD
          (Value.vNum 0))] ++
        [("id", Value.vNum 1), ("sim", Value.vNum simThree)]) =
      getField "sim" [("id", Value.vNum 1), ("sim", Value.vNum simThree)] := by
  have h := c8_transform_merge
    (Pipeline.leaf 0 "id" 10 (fun _ _ =>
      [[("id", Value.vNum 1), ("sim", Value.vNum simThree)],
       [("id", Value.vNum 2), ("sim", Value.vNum simNine)]]))
    1 "qa_score"
    (fun _ r => [("qa_score", (getField "sim" r).getD (Value.vNum 0))])
    "q" none
    [("id", Value.vNum 1), ("sim", Value.vNum simThree)]
    [[("id", Value.vNum 2), ("sim", Value.vNum simNine)]]
    (by decide)
  exact ⟨h.1, h.2.1, h.2.2 [("id", Value.vNum 1), ("sim", Value.vNum simThree)]
    "sim" (by decide)⟩

/-- C9: the += shorthand is sequential composition with a mapping stage
built from the right-hand document collection; and when every key of the
pipeline's result resolves in that collection, the expanded pipeline
returns the same keys in the same order, each record expanded to the
looked-up stored document merged with the original record's fields. -/
theorem c9_add_shorthand (p : Pipeline) (i : Nat) (key : String)
    (store : List Doc) (q : String) :
    (call (addDocuments p i key store) q =
      call (Pipeline.pseq p (Pipeline.mapping i key store)) q) ∧
    (∀ ds : List Doc, call p q = Output.docs ds →
      (∀ r ∈ ds, ∃ v d, getField key r = some v ∧
        lookupDoc key v store = some d) →
      keysOf key ((call (addDocuments p i key store) q).docsOf) =
        keysOf key ds ∧
      List.Forall₂ (fun r m => ∃ v d, getField key r = some v ∧
        lookupDoc key v store = some d ∧ m = mergeDoc d r)
        ds ((call (addDocuments p i key store) q).docsOf)) := by
  refine ⟨rfl, ?_⟩
  intro ds h hfound
  rw [call] at h
  rcases hres : callTr p q none with ⟨o, ta⟩
  rw [hres] at h
  simp only at h
  subst h
  rcases ds with - | ⟨d, rest⟩
  · constructor
    · simp [call, addDocuments, callTr_pseq, hres, Output.docsOf, keysOf,
        mapDocs]
    · simp [call, addDocuments, callTr_pseq, hres, Output.docsOf, mapDocs]
  · have hmap : ((call (addDocuments p i key store) q).docsOf) =
        mapDocs key store (d :: rest) := by
      simp [call, addDocuments, callTr_pseq, hres, callTr, Output.docsOf]
    rw [hmap]
    exact ⟨keysOf_mapDocs_of_found key store _ hfound,
      mapDocs_forall₂ key store _ hfound⟩

/-- C9, witness: the += theorem evaluated on a concrete one-record pipeline
and store: the key sequence is unchanged and the single record corresponds
to the stored document merged with the upstream record. -/
theorem c9_add_shorthand_witness :
    keysOf "id" ((call (addDocuments
      (Pipeline.leaf 0 "id" 10 (fun _ _ =>
        [[("id", Value.vNum 1), ("similarity", Value.vNum simNine)]]))
      1 "id" [[("id", Value.vNum 1), ("title", Value.vStr "Paris")]])
      "q").docsOf) =
      keysOf "id" [[("id", Value.vNum 1), ("similarity", Value.vNum simNine)]] ∧
    List.Forall₂ (fun r m => ∃ v d, getField "id" r = some v ∧
      lookupDoc "id" v [[("id", Value.vNum 1), ("title", Value.vStr "Paris")]]
        = some d ∧ m = mergeDoc d r)
      [[("id", Value.vNum 1), ("similarity", Value.vNum simNine)]]
      ((call (addDocuments
        (Pipeline.leaf 0 "id" 10 (fun _ _ =>
          [[("id", Value.vNum 1), ("similarity", Value.vNum simNine)]]))
        1 "id" [[("id", Value.vNum 1), ("title", Value.vStr "Paris")]])
        "q").docsOf) :=
  (c9_add_shorthand
    (Pipeline.leaf 0 "id" 10 (fun _ _ =>
      [[("id", Value.vNum 1), ("similarity", Value.vNum simNine)]]))
    1 "id" [[("id", Value.vNum 1), ("title", Value.vStr "Paris")]] "q").2
    [[("id", Value.vNum 1), ("similarity", Value.vNum simNine)]]
    (by decide)
    (by
      intro r hr
      rw [List.mem_singleton] at hr
      subst hr
      exact ⟨Value.vNum 1, [("id", Value.vNum 1), ("title", Value.vStr "Paris")],
        by decide, by decide⟩)

end Cherche
